import Mathlib

/-
Verification of the multilingual sentiment analyzer.

Shallow embedding of the repository's original logic:
  * `src/preprocessing/text_processor.py` — `TextProcessor.clean_text`,
    `TextProcessor.detect_language`, `TextProcessor._simple_language_detect`;
  * `src/models/sentiment_model.py` — `MultilingualSentimentAnalyzer.analyze`,
    `_analyze_single`, `analyze_batch`.

Strings are embedded as `List Char` (Lean `Char` = Unicode scalar value, matching
Python's one-code-point `str` elements; `len` = list length).  Machine floats of
the source are embedded as exact rationals.  External dependencies are embedded
as parameters (the softmax exponential `expf`, the transformer model as a
black-box text-to-logits function, the optional `langdetect` backend as an
outcome parameter) or as documented partial models (NFKC normalization).
-/

namespace SentimentAnalyzer

/-! ### Character classes

`TextProcessor.__init__` compiles the regexes; we embed each pattern's character
class.  `\w` is embedded as ASCII alphanumerics plus underscore (Python's `\w`
additionally matches non-ASCII letters; the claims settled below do not depend
on the extent of the class, and all concrete inputs used are ASCII where this
matters). -/

def isWordChar (c : Char) : Bool :=
  c.isAlphanum || c = '_'

/-- Character class of the URL pattern
`http[s]?://(?:[a-zA-Z]|[0-9]|[$-_@.&+]|[!*\\(\\),]|(?:%[0-9a-fA-F][0-9a-fA-F]))+`:
the branches `[$-_@.&+]` and `[!*\\(\\),]` are the byte range 0x24–0x5F plus `!`
(every other listed character already lies in 0x24–0x5F), and the `%hh` branch is
subsumed since `%` (0x25) is in that range. -/
def isUrlChar (c : Char) : Bool :=
  c.isAlpha || c.isDigit || (0x24 ≤ c.toNat && c.toNat ≤ 0x5F) || c = '!'

/-- Character class of `emoji_pattern` (the six ranges of the source). -/
def isEmojiChar (c : Char) : Bool :=
  (0x1F600 ≤ c.toNat && c.toNat ≤ 0x1F64F) ||
  (0x1F300 ≤ c.toNat && c.toNat ≤ 0x1F5FF) ||
  (0x1F680 ≤ c.toNat && c.toNat ≤ 0x1F6FF) ||
  (0x1F1E0 ≤ c.toNat && c.toNat ≤ 0x1F1FF) ||
  (0x2702 ≤ c.toNat && c.toNat ≤ 0x27B0) ||
  (0x24C2 ≤ c.toNat && c.toNat ≤ 0x1F251)

/-- Whitespace class used by Python's argumentless `str.split` and `str.strip`,
restricted to ASCII (Python additionally treats some rare Unicode space
characters as whitespace; the embedding keeps the ASCII class). -/
def isPyWs (c : Char) : Bool :=
  c = ' ' || c = '\t' || c = '\n' || c = '\r' || c = '\x0b' || c = '\x0c'

/-! ### Regex substitution scanners

`re.sub(pat, repl, text)` scans left to right, replacing each leftmost
non-overlapping match.  For the patterns of `clean_text` this specializes to the
scanners below. -/

/-- Does the list start with a `\w` character?  (`@\w+` and `#\w+` require at
least one word character after the marker.) -/
def headIsWord : List Char → Bool
  | c :: _ => isWordChar c
  | [] => false

/-- Scanner for `re.sub` with pattern `marker·\w+`: with `keepWord = false` the
whole match is replaced by the empty string (`mention_pattern.sub('')`,
`hashtag_pattern.sub('')`); with `keepWord = true` the match is replaced by its
`\w+` group (`re.sub(r'#(\w+)', r'\1', text)`). -/
def subMarker (marker : Char) (keepWord : Bool) : List Char → List Char
  | [] => []
  | c :: rest =>
    if c = marker && headIsWord rest then
      (if keepWord then rest.takeWhile isWordChar else []) ++
        subMarker marker keepWord (rest.dropWhile isWordChar)
    else
      c :: subMarker marker keepWord rest
termination_by l => l.length
decreasing_by
  · have h := congrArg List.length (List.takeWhile_append_dropWhile isWordChar rest)
    simp only [List.length_append] at h
    simp only [List.length_cons]
    omega
  · simp

/-- Length of the URL-pattern match starting at the head of the list (0 when
there is no match there).  `http[s]?://` requires the literal prefix — the
greedy optional `s` cannot steal the `:` — followed by at least one character of
the URL class, extended greedily. -/
def urlMatchLen : List Char → Nat
  | 'h' :: 't' :: 't' :: 'p' :: 's' :: ':' :: '/' :: '/' :: c :: rest =>
    if isUrlChar c then 9 + (rest.takeWhile isUrlChar).length else 0
  | 'h' :: 't' :: 't' :: 'p' :: ':' :: '/' :: '/' :: c :: rest =>
    if isUrlChar c then 8 + (rest.takeWhile isUrlChar).length else 0
  | _ => 0

/-- Scanner for `url_pattern.sub('', text)`. -/
def removeUrls : List Char → List Char
  | [] => []
  | c :: rest =>
    let n := urlMatchLen (c :: rest)
    if n = 0 then c :: removeUrls rest
    else removeUrls (rest.drop (n - 1))
termination_by l => l.length
decreasing_by
  · simp
  · simp only [List.length_cons, List.length_drop]
    omega

/-! ### Whitespace collapse

`' '.join(text.split())` followed by `.strip()`. -/

/-- Python `text.split()` (no separator): maximal runs of non-whitespace,
empties discarded. -/
def pySplit : List Char → List (List Char)
  | [] => []
  | c :: rest =>
    if isPyWs c then pySplit rest
    else (c :: rest.takeWhile (fun x => !isPyWs x)) ::
      pySplit (rest.dropWhile (fun x => !isPyWs x))
termination_by l => l.length
decreasing_by
  · simp
  · have h := congrArg List.length
      (List.takeWhile_append_dropWhile (fun x => !isPyWs x) rest)
    simp only [List.length_append] at h
    simp only [List.length_cons]
    omega

/-- Python `' '.join(words)`. -/
def joinWords : List (List Char) → List Char
  | [] => []
  | [w] => w
  | w :: ws => w ++ ' ' :: joinWords ws

/-- Python `text.strip()` over the whitespace class. -/
def pyStrip (l : List Char) : List Char :=
  ((l.dropWhile isPyWs).reverse.dropWhile isPyWs).reverse

/-! ### NFKC normalization (external `unicodedata`) -/

/-- Partial model of the external `unicodedata.normalize('NFKC', ·)`, per
character.  Real NFKC is the identity on ASCII; this model is additionally the
identity on every non-ASCII character except U+2026 HORIZONTAL ELLIPSIS, whose
NFKC compatibility decomposition is the three-character sequence `...` (an
example of NFKC expanding the text; other expanding characters such as U+FB01
are not in the table). -/
def nfkcChar (c : Char) : List Char :=
  if c = '…' then ['.', '.', '.'] else [c]

def nfkc (l : List Char) : List Char := l.flatMap nfkcChar

/-- Model of Python `str.lower`, per character: ASCII letters via
`Char.toLower`, plus the single unconditional expanding lowercase mapping of
Unicode SpecialCasing — U+0130 LATIN CAPITAL LETTER I WITH DOT ABOVE lowers to
`i` followed by U+0307 COMBINING DOT ABOVE (two characters).  Every other
codepoint's `lower()` is one character; those non-ASCII one-to-one mappings are
kept as the identity here, which leaves per-character lengths exact. -/
def pyLowerChar (c : Char) : List Char :=
  if c = 'İ' then ['i', '\u0307'] else [c.toLower]

def pyLower (l : List Char) : List Char := l.flatMap pyLowerChar

/-! ### `TextProcessor.clean_text` -/

/-- The keyword arguments of `clean_text` with their source defaults. -/
structure CleanOpts where
  remove_urls : Bool := true
  remove_mentions : Bool := true
  remove_hashtags : Bool := false
  remove_emojis : Bool := false
  lowercase : Bool := false
  normalize_unicode : Bool := true
deriving Repr, DecidableEq

/-- `TextProcessor.clean_text` on `List Char`.  Stage order as in the source:
empty short-circuit, NFKC, URLs, mentions, hashtags (remove whole token, or
keep the word dropping `#`), emojis (`[class]+ → ''`, i.e. a filter),
lowercase (`pyLower`, the per-character model of `str.lower` including its one
expanding mapping), then `' '.join(text.split())` and `.strip()`. -/
def cleanList (o : CleanOpts) (text : List Char) : List Char :=
  if text = [] then []
  else
    let t1 := if o.normalize_unicode then nfkc text else text
    let t2 := if o.remove_urls then removeUrls t1 else t1
    let t3 := if o.remove_mentions then subMarker '@' false t2 else t2
    let t4 := if o.remove_hashtags then subMarker '#' false t3 else subMarker '#' true t3
    let t5 := if o.remove_emojis then t4.filter (fun c => !isEmojiChar c) else t4
    let t6 := if o.lowercase then pyLower t5 else t5
    pyStrip (joinWords (pySplit t6))

def clean_text (o : CleanOpts) (s : String) : String :=
  String.mk (cleanList o s.data)

/-! ### Language detection -/

def isJapaneseRange (c : Char) : Bool :=
  (0x3040 ≤ c.toNat && c.toNat ≤ 0x309F) ||
  (0x30A0 ≤ c.toNat && c.toNat ≤ 0x30FF) ||
  (0x4E00 ≤ c.toNat && c.toNat ≤ 0x9FFF)

def isChineseRange (c : Char) : Bool :=
  0x4E00 ≤ c.toNat && c.toNat ≤ 0x9FFF

def isKoreanRange (c : Char) : Bool :=
  0xAC00 ≤ c.toNat && c.toNat ≤ 0xD7AF

def isLatinLetter (c : Char) : Bool :=
  (0x61 ≤ c.toNat && c.toNat ≤ 0x7A) || (0x41 ≤ c.toNat && c.toNat ≤ 0x5A)

/-- `TextProcessor._simple_language_detect`.  `len(re.findall(r'[class]', s))`
is the count of characters of the class; the float thresholds `0.3` and `0.1`
are embedded as the exact rationals they denote in the source text. -/
def simple_language_detect (s : String) : String × ℚ :=
  let japanese_chars := s.data.countP isJapaneseRange
  let chinese_chars := s.data.countP isChineseRange
  let korean_chars := s.data.countP isKoreanRange
  let latin_chars := s.data.countP isLatinLetter
  let total := japanese_chars + chinese_chars + korean_chars + latin_chars
  if total = 0 then ("unknown", 0)
  else if (total : ℚ) * (3 / 10) < (japanese_chars : ℚ) then
    ("ja", (japanese_chars : ℚ) / (total : ℚ))
  else if (total : ℚ) * (3 / 10) < (korean_chars : ℚ) then
    ("ko", (korean_chars : ℚ) / (total : ℚ))
  else if (total : ℚ) * (3 / 10) < (chinese_chars : ℚ) ∧
      (japanese_chars : ℚ) < (total : ℚ) * (1 / 10) then
    ("zh", (chinese_chars : ℚ) / (total : ℚ))
  else
    ("en", (latin_chars : ℚ) / (total : ℚ))

/-- Outcome of the optional external `langdetect` backend for one call:
the import fails (`unavailable`), `detect_langs` raises (`raises`), or it
returns a list of `(lang, prob)` results. -/
inductive DetectorOutcome where
  | unavailable : DetectorOutcome
  | raises : DetectorOutcome
  | returns : List (String × ℚ) → DetectorOutcome

/-- `TextProcessor.detect_language`: the `try` body returns the top result of
`detect_langs` (or `('unknown', 0.0)` on an empty result list); `except
ImportError` falls back to the heuristic; any other exception yields
`('unknown', 0.0)`. -/
def detect_language (ext : DetectorOutcome) (text : String) : String × ℚ :=
  match ext with
  | .returns (r :: _) => r
  | .returns [] => ("unknown", 0)
  | .unavailable => simple_language_detect text
  | .raises => ("unknown", 0)

/-! ### `MultilingualSentimentAnalyzer` (src/models/sentiment_model.py)

The transformer is external; per the spec's model boundary it is a black box
from text to one real-valued logit per label, embedded as a parameter
`model : String → ℚ × ℚ × ℚ` (the head is the fixed three-label space).
`torch.nn.functional.softmax` is `exp xᵢ / Σ exp xⱼ`, embedded over ℚ with the
exponential as a parameter `expf` (its only property used is positivity). -/

/-- The result dictionary built by `_analyze_single` / `analyze_batch`.
`scores` is the `dict(zip(labels, scores_np))` as an association list. -/
structure AnalysisResult where
  text : String
  sentiment : String
  confidence : ℚ
  scores : List (String × ℚ)
deriving Repr, DecidableEq

/-- `self.labels` set in `__init__`. -/
def labels : List String := ["negative", "neutral", "positive"]

/-- Softmax over the three logits. -/
def softmax3 (expf : ℚ → ℚ) (l : ℚ × ℚ × ℚ) : List ℚ :=
  let s := expf l.1 + expf l.2.1 + expf l.2.2
  [expf l.1 / s, expf l.2.1 / s, expf l.2.2 / s]

/-- `np.argmax`: index of the first occurrence of the maximum. -/
def argmaxGo : Nat → ℚ → Nat → List ℚ → Nat
  | bi, _, _, [] => bi
  | bi, bv, i, x :: xs => if bv < x then argmaxGo i x (i + 1) xs else argmaxGo bi bv (i + 1) xs

def npArgmax : List ℚ → Nat
  | [] => 0
  | x :: xs => argmaxGo 0 x 1 xs

/-- `np.max` (the argument is never empty at its call sites). -/
def npMax : List ℚ → ℚ
  | [] => 0
  | x :: xs => xs.foldl max x

/-- `MultilingualSentimentAnalyzer._analyze_single`, with the tokenizer plus
forward pass plus softmax summarized by `softmax3 expf (model text)` (the model
is a per-text black box; truncation at 512 tokens happens inside it).
`labels[np.argmax(scores_np)]` is embedded with `getD`; the index is always in
range since `scores_np` has three entries. -/
def analyze_single (expf : ℚ → ℚ) (model : String → ℚ × ℚ × ℚ)
    (text : String) : AnalysisResult :=
  let scores_np := softmax3 expf (model text)
  { text := text
    sentiment := labels.getD (npArgmax scores_np) ""
    confidence := npMax scores_np
    scores := labels.zip scores_np }

/-- Analyzer state: `load_model` sets `self.tokenizer` and `self.model`
together, so the reachable states have both `None` (initial) or both set
(loaded); one `Option` field models the pair. -/
structure Analyzer where
  model : Option (String → ℚ × ℚ × ℚ)

/-- The Python exceptions the embedded methods can raise. -/
inductive PyError where
  | runtimeError : String → PyError
  | typeErrorNoneNotCallable : PyError
  | valueErrorZeroStep : PyError
deriving DecidableEq

/-- `MultilingualSentimentAnalyzer.analyze`: raises `RuntimeError` when
`self.model is None`, then dispatches on `isinstance(text, str)`. -/
def analyze (expf : ℚ → ℚ) (a : Analyzer) (input : String ⊕ List String) :
    Except PyError (AnalysisResult ⊕ List AnalysisResult) :=
  match a.model with
  | none => .error (.runtimeError "Model not loaded. Call load_model() first.")
  | some m =>
    match input with
    | .inl t => .ok (.inl (analyze_single expf m t))
    | .inr ts => .ok (.inr (ts.map (analyze_single expf m)))

/-- `texts[i:i+batch_size]` chunking of the loop
`for i in range(0, len(texts), batch_size)` (used with `batch_size ≥ 1`;
`batch_size = 0` makes `range` raise before this is reached). -/
def chunkList (k : Nat) : List α → List (List α)
  | [] => []
  | x :: rest => (x :: rest.take (k - 1)) :: chunkList k (rest.drop (k - 1))
termination_by l => l.length
decreasing_by
  simp only [List.length_cons, List.length_drop]
  omega

/-- `MultilingualSentimentAnalyzer.analyze_batch`.  There is no
`self.model is None` guard: with `batch_size = 0` the `range` raises
`ValueError` at once; otherwise, on an unloaded analyzer, an empty `texts`
never enters the loop and returns `[]`, while a nonempty `texts` hits
`self.tokenizer(batch, ...)` with `self.tokenizer = None` and raises
`TypeError` (not the "model not loaded" `RuntimeError`).  When loaded, each
chunk gets one forward pass and softmax row per text; with the model a
per-text black box (padding masked out of attention, per the spec), the row
for a text is `softmax3 expf (model text)`. -/
def analyze_batch (expf : ℚ → ℚ) (a : Analyzer) (texts : List String)
    (batch_size : Nat := 32) : Except PyError (List AnalysisResult) :=
  if batch_size = 0 then .error .valueErrorZeroStep
  else
    match a.model with
    | none =>
      if texts.isEmpty then .ok []
      else .error .typeErrorNoneNotCallable
    | some m =>
      .ok ((chunkList batch_size texts).flatMap (fun b => b.map (analyze_single expf m)))

/-! ### Specification predicates -/

/-- The whitespace shape claimed of `clean_text` output: no leading whitespace,
no trailing whitespace, and no two consecutive whitespace characters. -/
def wsNormalized (l : List Char) : Prop :=
  (∀ c ∈ l.head?, isPyWs c = false) ∧
  (∀ c ∈ l.getLast?, isPyWs c = false) ∧
  l.Chain' (fun a b => ¬(isPyWs a = true ∧ isPyWs b = true))

/-- The values of the `scores` dictionary, in label order. -/
def scoreValues (r : AnalysisResult) : List ℚ := r.scores.map Prod.snd

/-- The invariants claimed of every `AnalysisResult`: the score keys are the
three canonical labels, the score values sum to 1 within tolerance `1e-5`,
`confidence` is the maximum score value, `sentiment` is the argmax label, and
`sentiment` is one of the three labels. -/
def resultInvariant (r : AnalysisResult) : Prop :=
  r.scores.map Prod.fst = labels ∧
  |(scoreValues r).sum - 1| ≤ 1 / 100000 ∧
  r.confidence = npMax (scoreValues r) ∧
  r.sentiment = labels.getD (npArgmax (scoreValues r)) "" ∧
  r.sentiment ∈ labels

/-! ## Theorems -/

theorem length_dropWhile_le (p : α → Bool) (l : List α) :
    (l.dropWhile p).length ≤ l.length := by
  have h := congrArg List.length (List.takeWhile_append_dropWhile p l)
  simp only [List.length_append] at h
  omega

theorem length_takeWhile_add_dropWhile (p : α → Bool) (l : List α) :
    (l.takeWhile p).length + (l.dropWhile p).length = l.length := by
  have h := congrArg List.length (List.takeWhile_append_dropWhile p l)
  simpa only [List.length_append] using h

/-! ### Length monotonicity of the cleaning stages -/

theorem subMarker_length_le (marker : Char) (keep : Bool) (l : List Char) :
    (subMarker marker keep l).length ≤ l.length := by
  induction l using subMarker.induct marker keep with
  | case1 => simp [subMarker]
  | case2 c rest h ih =>
    rw [subMarker, if_pos h]
    have ht := length_takeWhile_add_dropWhile isWordChar rest
    cases keep <;> simp_all [List.length_append] <;> omega
  | case3 c rest h ih =>
    rw [subMarker, if_neg h]
    simpa using Nat.succ_le_succ ih

theorem dropWhile_head_false (p : α → Bool) :
    ∀ (l : List α) (d : α) (m : List α), l.dropWhile p = d :: m → p d = false := by
  intro l
  induction l with
  | nil => intro d m h; simp at h
  | cons x xs ih =>
    intro d m h
    rw [List.dropWhile_cons] at h
    split at h
    · exact ih d m h
    · next hx =>
      cases h
      simpa using hx

theorem removeUrls_length_le (l : List Char) :
    (removeUrls l).length ≤ l.length := by
  induction l using removeUrls.induct with
  | case1 => simp [removeUrls]
  | case2 c rest n hn ih =>
    have hn' : urlMatchLen (c :: rest) = 0 := hn
    rw [removeUrls]
    simp only [hn', if_pos, List.length_cons, if_true]
    omega
  | case3 c rest n hn ih =>
    have hn' : ¬ urlMatchLen (c :: rest) = 0 := hn
    have ih' : (removeUrls (List.drop (urlMatchLen (c :: rest) - 1) rest)).length
        ≤ (List.drop (urlMatchLen (c :: rest) - 1) rest).length := ih
    rw [removeUrls]
    simp only [hn', if_neg, List.length_cons, if_false, ite_false]
    have hd := List.length_drop (urlMatchLen (c :: rest) - 1) rest
    omega

theorem pyStrip_length_le (l : List Char) :
    (pyStrip l).length ≤ l.length := by
  unfold pyStrip
  have h1 := length_dropWhile_le isPyWs l
  have h2 := length_dropWhile_le isPyWs (l.dropWhile isPyWs).reverse
  simp only [List.length_reverse] at *
  omega

theorem joinWords_pySplit_length_le_fuel :
    ∀ (n : Nat) (l : List Char), l.length ≤ n →
      (joinWords (pySplit l)).length ≤ l.length := by
  intro n
  induction n with
  | zero =>
    intro l hl
    have : l = [] := List.length_eq_zero.mp (Nat.le_zero.mp hl)
    subst this
    simp [pySplit, joinWords]
  | succ n ih =>
    intro l hl
    match l with
    | [] => simp [pySplit, joinWords]
    | c :: rest =>
      by_cases hc : isPyWs c
      · rw [pySplit, if_pos hc]
        have := ih rest (by simp at hl; omega)
        simp only [List.length_cons]
        omega
      · rw [pySplit, if_neg hc]
        have hwr := length_takeWhile_add_dropWhile (fun x => !isPyWs x) rest
        cases hsp : pySplit (rest.dropWhile (fun x => !isPyWs x)) with
        | nil =>
          rw [joinWords]
          simp only [List.length_cons]
          omega
        | cons p ps =>
          cases hr : rest.dropWhile (fun x => !isPyWs x) with
          | nil => rw [hr] at hsp; simp [pySplit] at hsp
          | cons d m =>
            have hd : isPyWs d := by
              have hh := dropWhile_head_false (fun x => !isPyWs x) rest d m hr
              simpa using hh
            rw [hr] at hsp
            rw [pySplit, if_pos hd] at hsp
            rw [hr] at hwr
            have hm : (joinWords (pySplit m)).length ≤ m.length := by
              apply ih
              simp at hl
              simp at hwr
              omega
            rw [hsp] at hm
            show (joinWords ((c :: rest.takeWhile (fun x => !isPyWs x)) :: p :: ps)).length ≤ _
            rw [joinWords]
            · simp only [List.length_append, List.length_cons] at *
              omega
            · simp

theorem joinWords_pySplit_length_le (l : List Char) :
    (joinWords (pySplit l)).length ≤ l.length :=
  joinWords_pySplit_length_le_fuel l.length l le_rfl

theorem cleanList_length_le (o : CleanOpts) (hlo : o.lowercase = false) (t : List Char) :
    (cleanList o t).length ≤ (if o.normalize_unicode then nfkc t else t).length := by
  by_cases h0 : t = []
  · subst h0
    simp [cleanList]
  · simp only [cleanList, if_neg h0]
    have h6 : ∀ l : List Char,
        (if o.lowercase then pyLower l else l).length ≤ l.length := by
      intro l; simp [hlo]
    have h5 : ∀ l : List Char,
        (if o.remove_emojis then l.filter (fun c => !isEmojiChar c) else l).length ≤ l.length := by
      intro l; split
      · exact List.length_filter_le _ _
      · exact le_rfl
    have h4 : ∀ l : List Char,
        (if o.remove_hashtags then subMarker '#' false l else subMarker '#' true l).length
          ≤ l.length := by
      intro l; split <;> exact subMarker_length_le _ _ _
    have h3 : ∀ l : List Char,
        (if o.remove_mentions then subMarker '@' false l else l).length ≤ l.length := by
      intro l; split
      · exact subMarker_length_le _ _ _
      · exact le_rfl
    have h2 : ∀ l : List Char,
        (if o.remove_urls then removeUrls l else l).length ≤ l.length := by
      intro l; split
      · exact removeUrls_length_le _
      · exact le_rfl
    exact le_trans (pyStrip_length_le _) (le_trans (joinWords_pySplit_length_le _)
      (le_trans (h6 _) (le_trans (h5 _) (le_trans (h4 _) (le_trans (h3 _) (h2 _))))))

/-- C4 (amended): for every input string and every combination of cleaning
option flags with `lowercase` off, the length of the output of `clean_text` is
at most the length of the NFKC-normalized input when `normalize_unicode` is on,
and at most the length of the input itself when `normalize_unicode` is off.
The original "output length at most input length for every option combination"
fails in exactly two stages that can lengthen the text: NFKC normalization
(e.g. U+2026 → `...`) and `str.lower` with `lowercase` on (its one expanding
mapping U+0130 → `i` plus U+0307): `clean_text` of `İ` with `lowercase` on and
`normalize_unicode` off has length 2 against input length 1.  Every other
stage only shortens the text. -/
theorem clean_text_length_le :
    (∀ (o : CleanOpts) (s : String), o.lowercase = false →
      (clean_text o s).length ≤
        (if o.normalize_unicode then (nfkc s.data).length else s.length)) ∧
    (∀ (o : CleanOpts) (s : String), o.lowercase = false → o.normalize_unicode = false →
      (clean_text o s).length ≤ s.length) ∧
    (clean_text { lowercase := true, normalize_unicode := false } "İ").length = 2 := by
  have main : ∀ (o : CleanOpts) (s : String), o.lowercase = false →
      (clean_text o s).length ≤
        (if o.normalize_unicode then (nfkc s.data).length else s.length) := by
    intro o s hlo
    have h := cleanList_length_le o hlo s.data
    show (cleanList o s.data).length ≤ _
    split <;> rename_i hn <;> simp only [hn, if_true, if_false, ite_true, ite_false] at h
    · exact h
    · exact h
  refine ⟨main, ?_, ?_⟩
  · intro o s hlo hn
    have h := main o s hlo
    simpa only [hn, if_false, ite_false] using h
  · show (cleanList { lowercase := true, normalize_unicode := false } "İ".data).length = 2
    simp [cleanList, removeUrls, urlMatchLen, subMarker, headIsWord, isWordChar,
      pyLower, pyLowerChar, pySplit, joinWords, pyStrip, isPyWs, isUrlChar]

/-- Witness for `clean_text_length_le` at a concrete input. -/
theorem clean_text_length_le_witness :
    (clean_text { normalize_unicode := false } "ab  cd").length ≤ ("ab  cd" : String).length :=
  clean_text_length_le.2.1 { normalize_unicode := false } "ab  cd" rfl rfl

/-- C4 counterexample: with the default options (NFKC normalization on), the
one-character input U+2026 HORIZONTAL ELLIPSIS cleans to the three-character
output `...`, so the output is strictly longer than the input. -/
theorem clean_text_length_counterexample :
    ¬ ((clean_text {} "…").length ≤ ("…" : String).length) := by
  have h : clean_text {} "…" = "..." := by
    simp [clean_text, cleanList, nfkc, nfkcChar, removeUrls, urlMatchLen, subMarker,
      headIsWord, isWordChar, pySplit, joinWords, pyStrip, isPyWs, isUrlChar]
  rw [h]
  decide

/-! ### Behavior of the hashtag substitutions -/

theorem subMarker_skips_non_marker (marker : Char) (keep : Bool) (a r : List Char)
    (ha : ∀ c ∈ a, c ≠ marker) :
    subMarker marker keep (a ++ r) = a ++ subMarker marker keep r := by
  induction a with
  | nil => simp
  | cons c a ih =>
    have hc : c ≠ marker := ha c (by simp)
    rw [List.cons_append, subMarker, if_neg (by simp [hc])]
    rw [ih (fun x hx => ha x (List.mem_cons_of_mem _ hx))]
    simp

theorem subMarker_matches_at_marker (marker : Char) (keep : Bool) (w b : List Char)
    (hw : w ≠ []) (hw2 : ∀ c ∈ w, isWordChar c = true) (hb : headIsWord b = false) :
    subMarker marker keep (marker :: (w ++ b)) =
      (if keep then w else []) ++ subMarker marker keep b := by
  obtain ⟨x, w', rfl⟩ : ∃ x w', w = x :: w' := by
    cases w with
    | nil => exact absurd rfl hw
    | cons x w' => exact ⟨x, w', rfl⟩
  have hx : isWordChar x = true := hw2 x (by simp)
  rw [subMarker, if_pos (by simp [headIsWord, hx])]
  have htk : (x :: w' ++ b).takeWhile isWordChar = (x :: w') ++ b.takeWhile isWordChar :=
    List.takeWhile_append_of_pos hw2
  have hdp : (x :: w' ++ b).dropWhile isWordChar = b.dropWhile isWordChar :=
    List.dropWhile_append_of_pos hw2
  have htb : b.takeWhile isWordChar = [] := by
    cases b with
    | nil => rfl
    | cons d b' =>
      have : isWordChar d = false := by simpa [headIsWord] using hb
      rw [List.takeWhile_cons_of_neg (by simp [this])]
  have hdb : b.dropWhile isWordChar = b := by
    cases b with
    | nil => rfl
    | cons d b' =>
      have : isWordChar d = false := by simpa [headIsWord] using hb
      rw [List.dropWhile_cons_of_neg (by simp [this])]
  rw [htk, hdp, htb, hdb]
  cases keep <;> simp

/-- C6: in the hashtag stage of `clean_text` (lines 73–77 of
`text_processor.py`), with hashtag removal enabled (`hashtag_pattern.sub('')`,
embedded as `subMarker '#' false`) each `#word` token is deleted entirely,
while with removal disabled (`re.sub(r'#(\w+)', r'\1', ...)`, embedded as
`subMarker '#' true`) only the `#` of each such token is deleted and the word
is kept.  Stated for an occurrence `a ++ '#' :: w ++ b` where `a` contains no
`#`, `w` is a nonempty word-character run, and `b` does not start with a word
character. -/
theorem clean_text_hashtag_handling (a w b : List Char)
    (ha : ∀ c ∈ a, c ≠ '#') (hw : w ≠ [])
    (hw2 : ∀ c ∈ w, isWordChar c = true) (hb : headIsWord b = false) :
    subMarker '#' false (a ++ '#' :: (w ++ b)) = a ++ subMarker '#' false b ∧
    subMarker '#' true (a ++ '#' :: (w ++ b)) = a ++ (w ++ subMarker '#' true b) := by
  constructor <;>
    rw [show ('#' :: (w ++ b) : List Char) = ['#'] ++ ('#' :: (w ++ b)).tail by simp,
      ← List.append_assoc] <;>
    rw [show (a ++ ['#'] ++ ('#' :: (w ++ b)).tail : List Char) = a ++ '#' :: (w ++ b) by simp] <;>
    rw [subMarker_skips_non_marker '#' _ a _ ha,
      subMarker_matches_at_marker '#' _ w b hw hw2 hb] <;>
    simp

/-- Witness for `clean_text_hashtag_handling` at a concrete occurrence. -/
theorem clean_text_hashtag_handling_witness :
    subMarker '#' false (['s', ' '] ++ '#' :: (['t', 'a', 'g'] ++ [' ', 'x'])) =
      ['s', ' '] ++ subMarker '#' false [' ', 'x'] ∧
    subMarker '#' true (['s', ' '] ++ '#' :: (['t', 'a', 'g'] ++ [' ', 'x'])) =
      ['s', ' '] ++ (['t', 'a', 'g'] ++ subMarker '#' true [' ', 'x']) :=
  clean_text_hashtag_handling ['s', ' '] ['t', 'a', 'g'] [' ', 'x']
    (by decide) (by decide) (by decide) (by decide)

/-! ### Whitespace shape of the output -/

theorem pySplit_forall (l : List Char) :
    ∀ w ∈ pySplit l, w ≠ [] ∧ ∀ c ∈ w, isPyWs c = false := by
  induction l using pySplit.induct with
  | case1 => simp [pySplit]
  | case2 c rest hc ih =>
    rw [pySplit, if_pos hc]
    exact ih
  | case3 c rest hc ih =>
    rw [pySplit, if_neg hc]
    intro w hw
    rcases List.mem_cons.mp hw with rfl | hw'
    · refine ⟨by simp, ?_⟩
      intro d hd
      rcases List.mem_cons.mp hd with rfl | hd'
      · simpa using hc
      · have := List.mem_takeWhile_imp hd'
        simpa using this
    · exact ih w hw'

theorem chain'_of_all_non_ws {l : List Char} (h : ∀ c ∈ l, isPyWs c = false) :
    l.Chain' (fun a b => ¬(isPyWs a = true ∧ isPyWs b = true)) := by
  induction l with
  | nil => simp
  | cons c rest ih =>
    rw [List.chain'_cons']
    refine ⟨?_, ih (fun d hd => h d (List.mem_cons_of_mem _ hd))⟩
    intro y _
    simp [h c (by simp)]

theorem joinWords_ne_nil (ws : List (List Char)) (hne : ws ≠ [])
    (h : ∀ w ∈ ws, w ≠ []) : joinWords ws ≠ [] := by
  induction ws using joinWords.induct with
  | case1 => exact absurd rfl hne
  | case2 w => exact h w (by simp)
  | case3 w ws hcons ih =>
    obtain ⟨p, ps, rfl⟩ : ∃ p ps, ws = p :: ps := by
      cases ws with
      | nil => exact absurd rfl hcons
      | cons p ps => exact ⟨p, ps, rfl⟩
    rw [joinWords]
    · intro hcontra
      simp [List.append_eq_nil] at hcontra
    · simp

theorem joinWords_props (ws : List (List Char))
    (h : ∀ w ∈ ws, w ≠ [] ∧ ∀ c ∈ w, isPyWs c = false) :
    (∀ c ∈ (joinWords ws).head?, isPyWs c = false) ∧
    (∀ c ∈ (joinWords ws).getLast?, isPyWs c = false) ∧
    (joinWords ws).Chain' (fun a b => ¬(isPyWs a = true ∧ isPyWs b = true)) := by
  induction ws using joinWords.induct with
  | case1 => simp [joinWords]
  | case2 w =>
    obtain ⟨hne, hall⟩ := h w (by simp)
    rw [joinWords]
    refine ⟨?_, ?_, chain'_of_all_non_ws hall⟩
    · intro c hc
      exact hall c (List.mem_of_mem_head? hc)
    · intro c hc
      refine hall c ?_
      have := List.mem_getLast?_eq_getLast hc
      obtain ⟨hh, rfl⟩ := this
      exact List.getLast_mem hh
  | case3 w ws hcons ih =>
    obtain ⟨p, ps, rfl⟩ : ∃ p ps, ws = p :: ps := by
      cases ws with
      | nil => exact absurd rfl hcons
      | cons p ps => exact ⟨p, ps, rfl⟩
    obtain ⟨hwne, hwall⟩ := h w (by simp)
    have hrest : ∀ v ∈ p :: ps, v ≠ [] ∧ ∀ c ∈ v, isPyWs c = false :=
      fun v hv => h v (List.mem_cons_of_mem _ hv)
    obtain ⟨ih1, ih2, ih3⟩ := ih hrest
    have hJne : joinWords (p :: ps) ≠ [] :=
      joinWords_ne_nil (p :: ps) (by simp) (fun v hv => (hrest v hv).1)
    rw [joinWords]
    · refine ⟨?_, ?_, ?_⟩
      · obtain ⟨x, w'', rfl⟩ : ∃ x w'', w = x :: w'' := by
          cases w with
          | nil => exact absurd rfl hwne
          | cons x w'' => exact ⟨x, w'', rfl⟩
        intro c hc
        simp only [List.cons_append, List.head?_cons, Option.mem_def,
          Option.some.injEq] at hc
        subst hc
        exact hwall _ (by simp)
      · intro c hc
        rw [List.getLast?_append] at hc
        have hgl : (' ' :: joinWords (p :: ps)).getLast? = (joinWords (p :: ps)).getLast? := by
          cases hJ : joinWords (p :: ps) with
          | nil => exact absurd hJ hJne
          | cons y j' => rw [List.getLast?_cons_cons]
        rw [hgl] at hc
        cases h' : (joinWords (p :: ps)).getLast? with
        | none =>
          rw [h'] at hc
          have hc' : c ∈ w.getLast? := hc
          exact hwall c (by
            obtain ⟨hh, rfl⟩ := List.mem_getLast?_eq_getLast hc'
            exact List.getLast_mem hh)
        | some y =>
          rw [h'] at hc
          have hyc : y = c := Option.some.inj hc
          subst hyc
          exact ih2 y (by rw [h']; rfl)
      · rw [List.chain'_append]
        refine ⟨chain'_of_all_non_ws hwall, ?_, ?_⟩
        · rw [List.chain'_cons']
          refine ⟨?_, ih3⟩
          intro y hy
          have := ih1 y hy
          simp [this]
        · intro x hx y hy
          simp only [List.head?_cons, Option.mem_def, Option.some.injEq] at hy
          subst hy
          have : isPyWs x = false := hwall x (by
            have := List.mem_getLast?_eq_getLast hx
            obtain ⟨hh, rfl⟩ := this
            exact List.getLast_mem hh)
          simp [this]
    · simp

theorem pyStrip_eq_self {l : List Char}
    (h1 : ∀ c ∈ l.head?, isPyWs c = false) (h2 : ∀ c ∈ l.getLast?, isPyWs c = false) :
    pyStrip l = l := by
  unfold pyStrip
  have e1 : l.dropWhile isPyWs = l := by
    cases l with
    | nil => rfl
    | cons c rest =>
      rw [List.dropWhile_cons_of_neg]
      simp [h1 c (by simp)]
  rw [e1]
  have e2 : l.reverse.dropWhile isPyWs = l.reverse := by
    cases hr : l.reverse with
    | nil => simp
    | cons c rest =>
      have hc : c ∈ l.getLast? := by
        rw [← List.head?_reverse, hr]
        simp
      rw [List.dropWhile_cons_of_neg]
      simp [h2 c hc]
  rw [e2, List.reverse_reverse]

/-- C7: for every input string and every combination of cleaning options, the
output of `clean_text` has no leading whitespace, no trailing whitespace, and
no run of two or more consecutive whitespace characters; and `clean_text` of
the empty string is the empty string (total, so no error). -/
theorem clean_text_ws_normalized (o : CleanOpts) (s : String) :
    wsNormalized (clean_text o s).data ∧ clean_text o "" = "" := by
  constructor
  · show wsNormalized (cleanList o s.data)
    by_cases h0 : s.data = []
    · simp [cleanList, h0, wsNormalized]
    · rw [cleanList, if_neg h0]
      obtain ⟨p1, p2, p3⟩ := joinWords_props _ (pySplit_forall _)
      rw [pyStrip_eq_self p1 p2]
      exact ⟨p1, p2, p3⟩
  · show String.mk (cleanList o "".data) = ""
    rw [show ("" : String).data = [] from rfl, cleanList]
    simp

/-! ### Inference wrapper -/

theorem chunkList_flatMap_map (f : α → β) (k : Nat) (xs : List α) :
    (chunkList k xs).flatMap (fun b => b.map f) = xs.map f := by
  induction xs using chunkList.induct k with
  | case1 => simp [chunkList]
  | case2 x rest ih =>
    rw [chunkList]
    simp only [List.flatMap_cons]
    rw [ih, ← List.map_append]
    congr 1
    rw [List.cons_append, List.take_append_drop]

theorem analyze_batch_loaded (expf : ℚ → ℚ) (m : String → ℚ × ℚ × ℚ)
    (texts : List String) (k : Nat) (hk : k ≠ 0) :
    analyze_batch expf ⟨some m⟩ texts k = .ok (texts.map (analyze_single expf m)) := by
  simp [analyze_batch, hk, chunkList_flatMap_map]

theorem npArgmax_three_lt (a b c : ℚ) : npArgmax [a, b, c] < 3 := by
  simp only [npArgmax, argmaxGo]
  split_ifs <;> omega

theorem labels_getD_mem {i : Nat} (h : i < 3) : labels.getD i "" ∈ labels := by
  interval_cases i <;> simp [labels]

theorem analyze_single_invariant (expf : ℚ → ℚ) (hpos : ∀ x, 0 < expf x)
    (m : String → ℚ × ℚ × ℚ) (text : String) :
    resultInvariant (analyze_single expf m text) := by
  have h0 := hpos (m text).1
  have h1 := hpos (m text).2.1
  have h2 := hpos (m text).2.2
  have hs : expf (m text).1 + expf (m text).2.1 + expf (m text).2.2 > 0 := by linarith
  have hsum : expf (m text).1 / (expf (m text).1 + expf (m text).2.1 + expf (m text).2.2)
      + expf (m text).2.1 / (expf (m text).1 + expf (m text).2.1 + expf (m text).2.2)
      + expf (m text).2.2 / (expf (m text).1 + expf (m text).2.1 + expf (m text).2.2) = 1 := by
    field_simp
  refine ⟨?_, ?_, ?_, ?_, ?_⟩
  · simp [analyze_single, softmax3, labels]
  · simp only [analyze_single, softmax3, scoreValues, labels, List.zip_cons_cons,
      List.zip_nil_right, List.zip_nil_left, List.map_cons, List.map_nil, List.sum_cons,
      List.sum_nil, add_zero]
    rw [← add_assoc, hsum]
    simp
  · simp [analyze_single, softmax3, scoreValues, labels]
  · simp [analyze_single, softmax3, scoreValues, labels]
  · simp only [analyze_single]
    exact labels_getD_mem (npArgmax_three_lt _ _ _)

/-- C3: every `AnalysisResult` produced by the analysis methods (the
single-text path `_analyze_single`, hence `analyze`, and every entry returned
by `analyze_batch`) has score keys exactly the three canonical labels, score
values summing to 1 within tolerance `1e-5`, `confidence` equal to the maximum
score value, `sentiment` equal to the argmax label of the scores, and
`sentiment` among {negative, neutral, positive}.  (The softmax exponential is
abstract; only its positivity is used.) -/
theorem analysis_result_invariants (expf : ℚ → ℚ) (m : String → ℚ × ℚ × ℚ)
    (hpos : ∀ x, 0 < expf x) :
    (∀ text, resultInvariant (analyze_single expf m text)) ∧
    (∀ texts k rs, analyze_batch expf ⟨some m⟩ texts k = .ok rs →
      ∀ r ∈ rs, resultInvariant r) := by
  refine ⟨fun text => analyze_single_invariant expf hpos m text, ?_⟩
  intro texts k rs hok r hr
  by_cases hk : k = 0
  · subst hk
    simp [analyze_batch] at hok
  · rw [analyze_batch_loaded expf m texts k hk] at hok
    have : texts.map (analyze_single expf m) = rs := by
      simpa using hok
    subst this
    obtain ⟨t, _, rfl⟩ := List.mem_map.mp hr
    exact analyze_single_invariant expf hpos m t

/-- Witness for `analysis_result_invariants` at a concrete model and text. -/
theorem analysis_result_invariants_witness :
    resultInvariant (analyze_single (fun _ => 1) (fun _ => (0, 0, 0)) "I love this!") :=
  (analysis_result_invariants (fun _ => 1) (fun _ => (0, 0, 0))
    (fun x => by norm_num)).1 "I love this!"

/-- C2: for every list of texts and every batch size `k ≥ 1`, `analyze_batch`
on a loaded analyzer returns exactly one result per input text, in the input
order, and the result sequence equals the sequence obtained by applying the
single-text analysis `_analyze_single` to each text independently (the model
treated as a fixed black-box function from text to logits; the equality is
exact in the rational embedding, hence within any numeric tolerance). -/
theorem analyze_batch_refines_single (expf : ℚ → ℚ) (m : String → ℚ × ℚ × ℚ)
    (texts : List String) (k : Nat) (hk : 1 ≤ k) :
    analyze_batch expf ⟨some m⟩ texts k = .ok (texts.map (analyze_single expf m)) :=
  analyze_batch_loaded expf m texts k (by omega)

/-- Witness for `analyze_batch_refines_single` at a concrete batch. -/
theorem analyze_batch_refines_single_witness :
    analyze_batch (fun _ => 1) ⟨some fun _ => (0, 0, 0)⟩ ["a", "b", "c"] 2 =
      .ok (["a", "b", "c"].map (analyze_single (fun _ => 1) fun _ => (0, 0, 0))) :=
  analyze_batch_refines_single (fun _ => 1) (fun _ => (0, 0, 0)) ["a", "b", "c"] 2 (by omega)

/-- C1 (amended): before `load_model`, `analyze` fails with the
"model not loaded" `RuntimeError` for every input (single text or list); but
`analyze_batch` performs no such check: before `load_model` it returns `[]`
successfully on an empty text list, and on a nonempty list it fails with the
`TypeError` of calling the unloaded (`None`) tokenizer, not with the
"model not loaded" error. -/
theorem unloaded_analyzer_behavior :
    (∀ (expf : ℚ → ℚ) (input : String ⊕ List String),
      analyze expf ⟨none⟩ input =
        .error (.runtimeError "Model not loaded. Call load_model() first.")) ∧
    (∀ (expf : ℚ → ℚ) (k : Nat), k ≠ 0 → analyze_batch expf ⟨none⟩ [] k = .ok []) ∧
    (∀ (expf : ℚ → ℚ) (texts : List String) (k : Nat), k ≠ 0 → texts ≠ [] →
      analyze_batch expf ⟨none⟩ texts k = .error .typeErrorNoneNotCallable) := by
  refine ⟨fun expf input => rfl, fun expf k hk => ?_, fun expf texts k hk ht => ?_⟩
  · simp [analyze_batch, hk]
  · simp [analyze_batch, hk, ht]

/-- Witness for `unloaded_analyzer_behavior` at concrete inputs. -/
theorem unloaded_analyzer_behavior_witness :
    analyze (fun _ => 1) ⟨none⟩ (.inl "Test text") =
      .error (.runtimeError "Model not loaded. Call load_model() first.") ∧
    analyze_batch (fun _ => 1) ⟨none⟩ [] 5 = .ok [] ∧
    analyze_batch (fun _ => 1) ⟨none⟩ ["Test text"] 5 = .error .typeErrorNoneNotCallable :=
  ⟨unloaded_analyzer_behavior.1 _ _,
   unloaded_analyzer_behavior.2.1 _ 5 (by omega),
   unloaded_analyzer_behavior.2.2 _ _ 5 (by omega) (by simp)⟩

/-- C1 counterexample: `analyze_batch` called before `load_model` does not
fail with a "model not loaded" error for every input — on the empty text list
it succeeds with `[]`, and on a nonempty list it raises a `TypeError`, not the
`RuntimeError` raised by `analyze`. -/
theorem unloaded_batch_counterexample :
    analyze_batch (fun _ => 1) ⟨none⟩ [] 32 = .ok [] ∧
    analyze_batch (fun _ => 1) ⟨none⟩ ["Test text"] 32 = .error .typeErrorNoneNotCallable :=
  ⟨rfl, rfl⟩

/-- C10: the `text` field of every result echoes the corresponding input text
unchanged — `_analyze_single` stores its argument verbatim, and the results of
`analyze_batch` carry the input texts in order. -/
theorem analysis_preserves_text (expf : ℚ → ℚ) (m : String → ℚ × ℚ × ℚ) :
    (∀ text, (analyze_single expf m text).text = text) ∧
    (∀ texts k rs, analyze_batch expf ⟨some m⟩ texts k = .ok rs →
      rs.map AnalysisResult.text = texts) := by
  refine ⟨fun text => rfl, ?_⟩
  intro texts k rs hok
  by_cases hk : k = 0
  · subst hk
    simp [analyze_batch] at hok
  · rw [analyze_batch_loaded expf m texts k hk] at hok
    have : texts.map (analyze_single expf m) = rs := by simpa using hok
    subst this
    rw [List.map_map]
    have : AnalysisResult.text ∘ analyze_single expf m = id := funext fun t => rfl
    rw [this, List.map_id]

/-- Witness for `analysis_preserves_text` at a concrete batch. -/
theorem analysis_preserves_text_witness :
    (["x", "y"].map (analyze_single (fun _ => 1) fun _ => (0, 0, 0))).map
      AnalysisResult.text = ["x", "y"] :=
  (analysis_preserves_text (fun _ => 1) (fun _ => (0, 0, 0))).2 ["x", "y"] 1 _
    (analyze_batch_loaded (fun _ => 1) (fun _ => (0, 0, 0)) ["x", "y"] 1 (by omega))

/-! ### Language detection -/

theorem latin_outside_cjk_ranges (c : Char) (h : isLatinLetter c = true) :
    isJapaneseRange c = false ∧ isChineseRange c = false ∧ isKoreanRange c = false := by
  simp only [isLatinLetter, Bool.or_eq_true, Bool.and_eq_true, decide_eq_true_eq] at h
  simp only [isJapaneseRange, isChineseRange, isKoreanRange, Bool.or_eq_false_iff,
    Bool.and_eq_false_iff, decide_eq_false_iff_not, not_le]
  omega

theorem korean_outside_other_ranges (c : Char) (h : isKoreanRange c = true) :
    isJapaneseRange c = false ∧ isChineseRange c = false ∧ isLatinLetter c = false := by
  simp only [isKoreanRange, Bool.and_eq_true, decide_eq_true_eq] at h
  simp only [isJapaneseRange, isChineseRange, isLatinLetter, Bool.or_eq_false_iff,
    Bool.and_eq_false_iff, decide_eq_false_iff_not, not_le]
  omega

theorem string_ne_empty_data {s : String} (h : s ≠ "") : s.data ≠ [] := by
  intro hd
  exact h (String.ext_iff.mpr (by simpa using hd))

/-- C8: the heuristic detector returns code `en` on every nonempty pure-Latin
text, code `ko` on every nonempty pure-Hangul text, and exactly
`("unknown", 0.0)` whenever the four character-range counts are all zero
(in particular on the empty text). -/
theorem simple_detect_cases :
    (∀ s : String, s ≠ "" → (∀ c ∈ s.data, isLatinLetter c = true) →
      (simple_language_detect s).1 = "en") ∧
    (∀ s : String, s ≠ "" → (∀ c ∈ s.data, isKoreanRange c = true) →
      (simple_language_detect s).1 = "ko") ∧
    (∀ s : String, s.data.countP isJapaneseRange = 0 → s.data.countP isChineseRange = 0 →
      s.data.countP isKoreanRange = 0 → s.data.countP isLatinLetter = 0 →
      simple_language_detect s = ("unknown", 0)) := by
  refine ⟨?_, ?_, ?_⟩
  · intro s hne hall
    have hj : s.data.countP isJapaneseRange = 0 :=
      List.countP_eq_zero.mpr fun c hc => by
        simp [(latin_outside_cjk_ranges c (hall c hc)).1]
    have hc0 : s.data.countP isChineseRange = 0 :=
      List.countP_eq_zero.mpr fun c hc => by
        simp [(latin_outside_cjk_ranges c (hall c hc)).2.1]
    have hk : s.data.countP isKoreanRange = 0 :=
      List.countP_eq_zero.mpr fun c hc => by
        simp [(latin_outside_cjk_ranges c (hall c hc)).2.2]
    have hl : s.data.countP isLatinLetter = s.data.length :=
      List.countP_eq_length.mpr hall
    have hpos : 0 < s.data.length := List.length_pos.mpr (string_ne_empty_data hne)
    simp only [simple_language_detect, hj, hc0, hk, hl, Nat.zero_add, Nat.add_zero]
    rw [if_neg (by omega)]
    rw [if_neg (by
      push_cast
      intro hcon
      have : (0:ℚ) ≤ (s.data.length : ℚ) * (3 / 10) := by positivity
      linarith)]
    rw [if_neg (by
      push_cast
      intro hcon
      have : (0:ℚ) ≤ (s.data.length : ℚ) * (3 / 10) := by positivity
      linarith)]
    rw [if_neg (by
      push_cast
      intro hcon
      have : (0:ℚ) ≤ (s.data.length : ℚ) * (3 / 10) := by positivity
      linarith [hcon.1])]
  · intro s hne hall
    have hj : s.data.countP isJapaneseRange = 0 :=
      List.countP_eq_zero.mpr fun c hc => by
        simp [(korean_outside_other_ranges c (hall c hc)).1]
    have hc0 : s.data.countP isChineseRange = 0 :=
      List.countP_eq_zero.mpr fun c hc => by
        simp [(korean_outside_other_ranges c (hall c hc)).2.1]
    have hl : s.data.countP isLatinLetter = 0 :=
      List.countP_eq_zero.mpr fun c hc => by
        simp [(korean_outside_other_ranges c (hall c hc)).2.2]
    have hk : s.data.countP isKoreanRange = s.data.length :=
      List.countP_eq_length.mpr hall
    have hpos : 0 < s.data.length := List.length_pos.mpr (string_ne_empty_data hne)
    simp only [simple_language_detect, hj, hc0, hk, hl, Nat.zero_add, Nat.add_zero]
    rw [if_neg (by omega)]
    rw [if_neg (by
      push_cast
      intro hcon
      have : (0:ℚ) ≤ (s.data.length : ℚ) * (3 / 10) := by positivity
      linarith)]
    rw [if_pos (by
      have h1 : (1:ℚ) ≤ (s.data.length : ℚ) := by exact_mod_cast hpos
      nlinarith)]
  · intro s hj hc0 hk hl
    simp [simple_language_detect, hj, hc0, hk, hl]

/-- Witness for `simple_detect_cases` at concrete texts. -/
theorem simple_detect_cases_witness :
    (simple_language_detect "hello").1 = "en" ∧
    (simple_language_detect "안녕").1 = "ko" ∧
    simple_language_detect "!!!" = ("unknown", 0) :=
  ⟨simple_detect_cases.1 "hello" (by decide) (by decide),
   simple_detect_cases.2.1 "안녕" (by decide) (by decide),
   simple_detect_cases.2.2 "!!!" (by decide) (by decide) (by decide) (by decide)⟩

/-- C9: the Chinese-range count never exceeds the Japanese-range count (the
Japanese character class contains the whole CJK block used as the Chinese
class), so the `zh` guard is unsatisfiable: the heuristic never returns `zh`,
and its code is always one of `ja`, `ko`, `en`, `unknown`. -/
theorem simple_detect_never_zh (s : String) :
    s.data.countP isChineseRange ≤ s.data.countP isJapaneseRange ∧
    (simple_language_detect s).1 ≠ "zh" ∧
    (simple_language_detect s).1 ∈ (["ja", "ko", "en", "unknown"] : List String) := by
  have hmono : s.data.countP isChineseRange ≤ s.data.countP isJapaneseRange := by
    apply List.countP_mono_left
    intro c _ hc
    simp only [isChineseRange, Bool.and_eq_true, decide_eq_true_eq] at hc
    simp only [isJapaneseRange, Bool.or_eq_true, Bool.and_eq_true, decide_eq_true_eq]
    omega
  refine ⟨hmono, ?_⟩
  simp only [simple_language_detect]
  split_ifs with h1 h2 h3 h4
  · exact ⟨by simp, by simp⟩
  · exact ⟨by simp, by simp⟩
  · exact ⟨by simp, by simp⟩
  · exfalso
    obtain ⟨hch, hja⟩ := h4
    have hle : ((s.data.countP isChineseRange : ℚ)) ≤ (s.data.countP isJapaneseRange : ℚ) := by
      exact_mod_cast hmono
    have htot : (0:ℚ) ≤ ((s.data.countP isJapaneseRange + s.data.countP isChineseRange +
        s.data.countP isKoreanRange + s.data.countP isLatinLetter : ℕ) : ℚ) := by positivity
    nlinarith
  · exact ⟨by simp, by simp⟩

/-- C5 (amended): the fallback to the character-range heuristic happens
exactly when the external detector is unavailable (its import fails); when the
detector is available but raises, `detect_language` returns `("unknown", 0.0)`
rather than the heuristic's result. -/
theorem detect_language_fallback :
    (∀ text : String, detect_language .unavailable text = simple_language_detect text) ∧
    (∀ text : String, detect_language .raises text = ("unknown", 0)) :=
  ⟨fun _ => rfl, fun _ => rfl⟩

/-- C5 counterexample: on the input `hello`, when the external detector raises,
`detect_language` returns `("unknown", 0.0)` while the heuristic returns
`("en", 1.0)` — so a raising detector does not fall back to the heuristic. -/
theorem detect_language_raises_counterexample :
    detect_language .raises "hello" = ("unknown", 0) ∧
    simple_language_detect "hello" = ("en", 1) ∧
    detect_language .raises "hello" ≠ simple_language_detect "hello" := by
  have h : simple_language_detect "hello" = ("en", 1) := by
    have h1 : List.countP isJapaneseRange "hello".data = 0 := by decide
    have h2 : List.countP isChineseRange "hello".data = 0 := by decide
    have h3 : List.countP isKoreanRange "hello".data = 0 := by decide
    have h4 : List.countP isLatinLetter "hello".data = 5 := by decide
    simp only [simple_language_detect, h1, h2, h3, h4]
    norm_num
  refine ⟨rfl, h, ?_⟩
  rw [h, show detect_language .raises "hello" = ("unknown", 0) from rfl]
  simp

end SentimentAnalyzer
